import Mathlib

/-!
Shallow embedding of the OpenHantek6022 post-processing core:
`SpectrumGenerator::process` (spectrumgenerator.cpp) and
`MathChannelGenerator::process` (mathchannelgenerator.cpp), over the data
model of ppresult.h.  C++ `double` arithmetic is modelled by `ℝ`;
`unsigned int` arithmetic is modelled by `ℕ` with explicit `% 2^32`
where wrap-around is observable.  The two FFTW transforms
(`FFTW_R2HC` and `FFTW_HC2R`) are external library calls and are taken
as parameters of the embedding; the code around them is embedded
faithfully.
-/

noncomputable section

open Classical Real

/-- Struct `SampleValues` of ppresult.h: a sample vector and its interval. -/
structure SampleValues where
  sample : List ℝ
  interval : ℝ
  deriving Inhabited

/-- Struct `DataChannel` of ppresult.h. -/
structure DataChannel where
  voltage : SampleValues
  spectrum : SampleValues
  frequency : ℝ
  dc : ℝ
  ac : ℝ
  rms : ℝ
  valid : Bool
  deriving Inhabited

/-- Enum `Dso::WindowFunction` (the kinds handled by the switch in
`SpectrumGenerator::process`). -/
inductive WindowFunction where
  | hamming | hann | cosine | lanczos | bartlett | triangular | gauss
  | bartlettHann | blackman | nuttall | blackmanHarris | blackmanNuttall
  | flattop | rectangular
  deriving DecidableEq, Inhabited

/-- Unsigned 32-bit subtraction `a - b` as used on C++ `unsigned int`
operands: the result wraps modulo `2^32` (requires `b ≤ 2^32`, which holds
at every use site). -/
def usub32 (a b : ℕ) : ℕ := (a + 2 ^ 32 - b) % 2 ^ 32

/-- One coefficient of the window switch in `SpectrumGenerator::process`
(lines 47-137).  `n` is `lastRecordLength`, `p` is `windowPosition`;
`windowEnd = lastRecordLength - 1`.  Integer (truncating) divisions and the
unsigned wrap-around of `windowPosition - windowEnd / 2` in the GAUSS case
are modelled exactly as the C++ evaluates them. -/
def windowCoefficient (w : WindowFunction) (n p : ℕ) : ℝ :=
  let windowEnd : ℕ := n - 1
  let we : ℝ := windowEnd
  let pos : ℝ := p
  match w with
  | .hamming => 0.54 - 0.46 * Real.cos (2 * π * pos / we)
  | .hann => 0.5 * (1 - Real.cos (2 * π * pos / we))
  | .cosine => Real.sin (π * pos / we)
  | .lanczos =>
      let sincParameter := (2 * pos / we - 1) * π
      if sincParameter = 0 then 1 else Real.sin sincParameter / sincParameter
  | .bartlett =>
      2 / we * (((windowEnd / 2 : ℕ) : ℝ) - |pos - we / 2|)
  | .triangular =>
      2 / (n : ℝ) * (((n / 2 : ℕ) : ℝ) - |pos - we / 2|)
  | .gauss =>
      let sigma : ℝ := 0.4
      Real.exp (-0.5 * (((usub32 p (windowEnd / 2) : ℕ) : ℝ) / (sigma * we / 2)) ^ 2)
  | .bartlettHann =>
      0.62 - 0.48 * |((p / windowEnd : ℕ) : ℝ) - 0.5| - 0.38 * Real.cos (2 * π * pos / we)
  | .blackman =>
      let alpha : ℝ := 0.16
      (1 - alpha) / 2 - 0.5 * Real.cos (2 * π * pos / we) +
        alpha / 2 * Real.cos (4 * π * pos / we)
  | .nuttall =>
      0.355768 - 0.487396 * Real.cos (2 * π * pos / we) +
        0.144232 * Real.cos (4 * π * pos / we) - 0.012604 * Real.cos (6 * π * pos / we)
  | .blackmanHarris =>
      0.35875 - 0.48829 * Real.cos (2 * π * pos / we) +
        0.14128 * Real.cos (4 * π * pos / we) - 0.01168 * Real.cos (6 * π * pos / we)
  | .blackmanNuttall =>
      0.3635819 - 0.4891775 * Real.cos (2 * π * pos / we) +
        0.1365995 * Real.cos (4 * π * pos / we) - 0.0106411 * Real.cos (6 * π * pos / we)
  | .flattop =>
      1.0 - 1.93 * Real.cos (2 * π * pos / we) + 1.29 * Real.cos (4 * π * pos / we) -
        0.388 * Real.cos (6 * π * pos / we) + 0.028 * Real.cos (8 * π * pos / we)
  | .rectangular => 1.0

/-- The full window coefficient array written by the switch: positions
`0 ≤ p < lastRecordLength`. -/
def windowCoeffs (w : WindowFunction) (n : ℕ) : List ℝ :=
  (List.range n).map (windowCoefficient w n)

/-- The window cache of `SpectrumGenerator` (members `lastWindowBuffer`,
`lastWindow`, `lastRecordLength`); `buffer = none` models the null
`lastWindowBuffer` before the first computation. -/
structure WindowCache where
  buffer : Option (List ℝ)
  lastWindow : WindowFunction
  lastRecordLength : ℕ

/-- Cache check and window computation, lines 39-138 of
spectrumgenerator.cpp.  `sampleCount` is a `size_t`; the stored
`lastRecordLength` is the `unsigned int` cast `(unsigned)sampleCount`.
Returns the updated cache and the buffer used for this channel. -/
def windowCacheStep (cache : WindowCache) (w : WindowFunction) (sampleCount : ℕ) :
    WindowCache × List ℝ :=
  if cache.buffer = none ∨ cache.lastWindow ≠ w ∨ cache.lastRecordLength ≠ sampleCount then
    let lastRecordLength := sampleCount % 2 ^ 32
    let buf := windowCoeffs w lastRecordLength
    (⟨some buf, w, lastRecordLength⟩, buf)
  else
    (cache, cache.buffer.getD [])

/-- Model of `std::vector<double>::resize n`: keep the first `n` entries,
pad with `0.0` if the vector grows. -/
def resizeList (n : ℕ) (l : List ℝ) : List ℝ :=
  l.take n ++ List.replicate (n - l.length) 0

/-- Enum `Dso::MathMode` (the modes handled by `MathChannelGenerator`). -/
inductive MathMode where
  | addCh1Ch2 | subCh2FromCh1 | subCh1FromCh2
  deriving DecidableEq, Inhabited

/-- The binary operator selected by the math-mode switch (lines 34-44 of
mathchannelgenerator.cpp). -/
def mathOp (m : MathMode) (a b : ℝ) : ℝ :=
  match m with
  | .addCh1Ch2 => a + b
  | .subCh2FromCh1 => a - b
  | .subCh1FromCh2 => b - a

/-- Class `PPresult`: the per-channel analyzed data. -/
structure PPresult where
  channels : List DataChannel

/-- Member `PPresult::data` / `modifyData`: access to one channel record. -/
def PPresult.data (r : PPresult) (i : ℕ) : DataChannel :=
  r.channels.getD i default

/-- Replacement of one channel record (the in-place mutation through
`modifyData`). -/
def PPresult.setData (r : PPresult) (i : ℕ) (ch : DataChannel) : PPresult :=
  ⟨r.channels.set i ch⟩

/-- The configuration read by `MathChannelGenerator::process`: per-channel
enable flags `scope->voltage[ch].used` / `scope->spectrum[ch].used` and the
math mode `Dso::getMathMode(scope->voltage[physicalChannels])`. -/
structure MathScopeSettings where
  voltageUsed : ℕ → Bool
  spectrumUsed : ℕ → Bool
  mathMode : MathMode

namespace MathChannelGenerator

/-- Body of the loop of `MathChannelGenerator::process` for one derived
channel index: skip disabled channels, copy the interval from channel 0 and
combine the two physical channels sample-wise (the `resize` to the shorter
length followed by the element loop amounts to `zipWith`). -/
def step (scope : MathScopeSettings) (r : PPresult) (channel : ℕ) : PPresult :=
  if ¬scope.voltageUsed channel ∧ ¬scope.spectrumUsed channel then r
  else
    let ch := r.data channel
    r.setData channel
      { ch with voltage :=
          { sample := List.zipWith (mathOp scope.mathMode)
              (r.data 0).voltage.sample (r.data 1).voltage.sample
            interval := (r.data 0).voltage.interval } }

/-- `MathChannelGenerator::process` (lines 12-49): if either physical
channel 0 or 1 is empty the call is a no-op, otherwise every channel index
from `physicalChannels` up to `channelCount - 1` is processed in order. -/
def process (scope : MathScopeSettings) (physicalChannels : ℕ) (r : PPresult) : PPresult :=
  if (r.data 0).voltage.sample = [] ∨ (r.data 1).voltage.sample = [] then r
  else (List.range' physicalChannels (r.channels.length - physicalChannels)).foldl (step scope) r

end MathChannelGenerator

/-- Post-processing settings consumed by `SpectrumGenerator::process`:
`postprocessing->spectrumWindow`, `->spectrumReference`, `->spectrumLimit`. -/
structure PostSettings where
  spectrumWindow : WindowFunction
  spectrumReference : ℝ
  spectrumLimit : ℝ

namespace SpectrumGenerator

/-- Line 144: `unsigned int dftLength = sampleCount / 2` — a `size_t`
division truncated into an `unsigned int`. -/
def dftLengthOf (sampleCount : ℕ) : ℕ := sampleCount / 2 % 2 ^ 32

/-- Lines 152-158: `dc` is the arithmetic mean of the voltage samples. -/
def dcOf (sample : List ℝ) : ℝ := sample.sum / sample.length

/-- Lines 161-167: mean square of the DC-removed samples. -/
def ac2Of (sample : List ℝ) : ℝ :=
  (sample.map fun x => (x - dcOf sample) * (x - dcOf sample)).sum / sample.length

/-- Lines 162-166: `windowedValues[p] = lastWindowBuffer[p] * (sample[p] - dc)`. -/
def windowedOf (window sample : List ℝ) : List ℝ :=
  (List.range sample.length).map fun p => window.getD p 0 * (sample.getD p 0 - dcOf sample)

/-- Lines 193-204, effect on the spectrum buffer `f` (the forward-FFT
output of length `n`): positions `1 ≤ k < dftLength` are replaced by the
magnitude `sqrt(fwd^2 + rev^2)` where `fwd = f[k]` and `rev = f[n-k]`;
positions `0` and `k ≥ dftLength` are left as written by the FFT. -/
def magnitudeSpectrum (f : List ℝ) (n dft : ℕ) : List ℝ :=
  (List.range n).map fun k =>
    if 1 ≤ k ∧ k < dft then
      Real.sqrt (f.getD k 0 * f.getD k 0 + f.getD (n - k) 0 * f.getD (n - k) 0)
    else f.getD k 0

/-- Lines 191-208: the `conjugateComplex` buffer — the magnitude-squared
half-complex spectrum scaled by `correctionFactor = 1/dftLength/dftLength`,
with all imaginary parts zero. -/
def conjugateComplex (f : List ℝ) (n dft : ℕ) : List ℝ :=
  let correctionFactor : ℝ := 1 / (dft : ℝ) / (dft : ℝ)
  (List.range n).map fun k =>
    if k = 0 then f.getD 0 0 * f.getD 0 0 * correctionFactor
    else if k < dft then
      (f.getD k 0 * f.getD k 0 + f.getD (n - k) 0 * f.getD (n - k) 0) * correctionFactor
    else if k = dft then f.getD dft 0 * f.getD dft 0 * correctionFactor
    else 0

/-- One step of the correlation scan, lines 224-228: `s = (minimumCorrelation,
peakCorrelation, peakPosition)`, `p` the current position. -/
def corrScanStep (corr : List ℝ) (s : ℝ × ℝ × ℕ) (p : ℕ) : ℝ × ℝ × ℕ :=
  let c := corr.getD p 0
  if c > s.2.1 ∧ c > s.1 then (s.1, c, p)
  else if c < s.1 then (c, s.2.1, s.2.2) else s

/-- Lines 219-229: the scan of the correlation buffer over positions
`1 ≤ position < sampleCount / 2`, starting from `minimumCorrelation =
correlation[0]`, `peakCorrelation = 0`, `peakPosition = 0`. -/
def corrScan (corr : List ℝ) (sampleCount : ℕ) : ℝ × ℝ × ℕ :=
  (List.range' 1 (sampleCount / 2 - 1)).foldl (corrScanStep corr) (corr.getD 0 0, 0, 0)

/-- The `peakPosition` resulting from the correlation scan. -/
def peakPositionOf (corr : List ℝ) (sampleCount : ℕ) : ℕ := (corrScan corr sampleCount).2.2

/-- Lines 234-237: the autocorrelation frequency estimate (the value of
`channelData->frequency` before the spectral-peak override). -/
def autocorrFrequency (interval : ℝ) (corr : List ℝ) (sampleCount : ℕ) : ℝ :=
  if peakPositionOf corr sampleCount > 100 then
    1 / (interval * (peakPositionOf corr sampleCount : ℝ))
  else 0

/-- Lines 249-252: the dB conversion of a single bin, `value =
20*log10(fabs(bin)) + offset`, clamped from below to `offsetLimit`. -/
def dbValue (offset offsetLimit : ℝ) (b : ℝ) : ℝ :=
  let value := 20 * Real.logb 10 |b| + offset
  if offsetLimit > value then offsetLimit else value

/-- One step of the dB conversion loop, lines 247-260.  State:
`(converted prefix, peakSpectrum, peakPos, position)`. -/
def dbStep (offset offsetLimit : ℝ) (s : List ℝ × ℝ × ℕ × ℕ) (b : ℝ) :
    List ℝ × ℝ × ℕ × ℕ :=
  let value := dbValue offset offsetLimit b
  let peak : ℝ × ℕ := if s.2.1 < value then (value, s.2.2.2) else (s.2.1, s.2.2.1)
  (s.1 ++ [value], peak.1, peak.2, s.2.2.2 + 1)

/-- Lines 242-260: the dB conversion pass over the truncated spectrum,
starting from `peakSpectrum = *(spectrum.sample.begin())` (the raw first
bin) and `peakPos = 0`. -/
def dbPass (offset offsetLimit : ℝ) (l : List ℝ) : List ℝ × ℝ × ℕ × ℕ :=
  l.foldl (dbStep offset offsetLimit) ([], l.headD 0, 0, 0)

/-- One channel iteration of `SpectrumGenerator::process` (lines 28-266).
`r2hc` and `hc2r` are the external FFTW transforms (`FFTW_R2HC` forward,
`FFTW_HC2R` inverse); the surrounding buffers are length `sampleCount`, so
their outputs are forced to that length.  Returns the updated window cache
and the updated channel record. -/
def processChannel (post : PostSettings) (spectrumUsed : Bool)
    (r2hc hc2r : List ℝ → List ℝ) (cache : WindowCache) (ch : DataChannel) :
    WindowCache × DataChannel :=
  if ch.voltage.sample = [] then
    (cache, { ch with spectrum := { sample := [], interval := 0 } })
  else
    let sampleCount := ch.voltage.sample.length
    let cacheStep := windowCacheStep cache post.spectrumWindow sampleCount
    let window := cacheStep.2
    let interval : ℝ := 1 / ch.voltage.interval / (sampleCount : ℝ)
    let dftLength := dftLengthOf sampleCount
    let dc := dcOf ch.voltage.sample
    let ac2 := ac2Of ch.voltage.sample
    let fftOut := resizeList sampleCount (r2hc (windowedOf window ch.voltage.sample))
    let truncated := resizeList ((dftLength + (2 ^ 32 - 1)) % 2 ^ 32)
      (magnitudeSpectrum fftOut sampleCount dftLength)
    let correlation := resizeList sampleCount (hc2r (conjugateComplex fftOut sampleCount dftLength))
    let frequency0 := autocorrFrequency ch.voltage.interval correlation sampleCount
    let offset := 60 - post.spectrumReference - 20 * Real.logb 10 (dftLength : ℝ)
    let offsetLimit := post.spectrumLimit - post.spectrumReference
    let db := if spectrumUsed ∨ 0 = frequency0 then dbPass offset offsetLimit truncated
      else (truncated, 0, 0, 0)
    let frequency := if db.2.2.1 ≠ 0 then interval * (db.2.2.1 : ℝ) else frequency0
    (cacheStep.1,
      { ch with
        spectrum := { sample := db.1, interval := interval }
        frequency := frequency
        dc := dc
        ac := Real.sqrt ac2
        rms := Real.sqrt (dc * dc + ac2) })

/-- `SpectrumGenerator::process`: every channel in order, threading the
window cache through the loop. -/
def process (post : PostSettings) (spectrumUsed : ℕ → Bool)
    (r2hc hc2r : List ℝ → List ℝ) (cache : WindowCache) (r : PPresult) :
    WindowCache × PPresult :=
  let n := r.channels.length
  (List.range n).foldl
    (fun s i =>
      let out := processChannel post (spectrumUsed i) r2hc hc2r s.1 (s.2.data i)
      (out.1, s.2.setData i out.2))
    (cache, r)

end SpectrumGenerator

/-- Well-formedness of the window cache: the stored record length fits in an
`unsigned int` and the stored buffer (if any) holds exactly the coefficients
of the stored tags.  It holds for the initial state (`buffer = none`) and is
preserved by `windowCacheStep`. -/
def WindowCacheWF (c : WindowCache) : Prop :=
  c.lastRecordLength < 2 ^ 32 ∧
    ∀ b, c.buffer = some b → b = windowCoeffs c.lastWindow c.lastRecordLength

/-- Minimum of the correlation values at indices `0 ≤ j < p` (the "running
minimum correlation value seen so far" when the scan reaches position `p`). -/
def runningMin (corr : List ℝ) (p : ℕ) : ℝ :=
  ((List.range p).map fun j => corr.getD j 0).foldl min (corr.getD 0 0)

/-- Modelled from the spec for comparison with the code (claim C1): `p` is
the first position in the scanned range `1 ≤ p < sampleCount / 2` that is a
local maximum of the correlation sequence (strictly above both neighbours)
and exceeds the running minimum seen so far. -/
def IsFirstLocalMaxAboveMin (corr : List ℝ) (sampleCount p : ℕ) : Prop :=
  (1 ≤ p ∧ p < sampleCount / 2 ∧
    corr.getD (p - 1) 0 < corr.getD p 0 ∧ corr.getD (p + 1) 0 < corr.getD p 0 ∧
    runningMin corr p < corr.getD p 0) ∧
  ∀ q, 1 ≤ q → q < p →
    ¬(corr.getD (q - 1) 0 < corr.getD q 0 ∧ corr.getD (q + 1) 0 < corr.getD q 0 ∧
      runningMin corr q < corr.getD q 0)

/-- Modelled from the spec for comparison with the code (claim C2): `i` is
an index of the maximum value of the list. -/
def IsMaxIdx (l : List ℝ) (i : ℕ) : Prop :=
  i < l.length ∧ ∀ j, j < l.length → l.getD j 0 ≤ l.getD i 0

theorem length_resizeList (n : ℕ) (l : List ℝ) : (resizeList n l).length = n := by
  simp [resizeList]
  omega

theorem resizeList_of_length_le (n : ℕ) (l : List ℝ) (h : n ≤ l.length) :
    resizeList n l = l.take n := by
  simp [resizeList, Nat.sub_eq_zero_of_le h]

/-- Claim C9: for a channel whose voltage samples are empty, `process` sets
`spectrum.sample` to empty and `spectrum.interval` to 0 and leaves every
other field of the channel record (voltage series, frequency, dc, ac, rms,
valid) unchanged; the window cache is not touched either. -/
theorem C9_empty_voltage_clears_spectrum (post : PostSettings) (u : Bool)
    (r2hc hc2r : List ℝ → List ℝ) (cache : WindowCache) (ch : DataChannel)
    (h : ch.voltage.sample = []) :
    let out := SpectrumGenerator.processChannel post u r2hc hc2r cache ch
    out.2.spectrum.sample = [] ∧ out.2.spectrum.interval = 0 ∧
    out.2.voltage = ch.voltage ∧ out.2.frequency = ch.frequency ∧
    out.2.dc = ch.dc ∧ out.2.ac = ch.ac ∧ out.2.rms = ch.rms ∧
    out.2.valid = ch.valid ∧ out.1 = cache := by
  simp [SpectrumGenerator.processChannel, h]

/-- Witness for C9 at a concrete, previously populated channel. -/
theorem C9_empty_voltage_clears_spectrum_witness :
    let ch : DataChannel := ⟨⟨[], 5⟩, ⟨[3, 4], 2⟩, 7, 8, 9, 10, true⟩
    let out := SpectrumGenerator.processChannel ⟨.hamming, 0, 0⟩ true id id
      ⟨none, .hamming, 0⟩ ch
    out.2.spectrum.sample = [] ∧ out.2.spectrum.interval = 0 ∧
    out.2.voltage = ch.voltage ∧ out.2.frequency = ch.frequency ∧
    out.2.dc = ch.dc ∧ out.2.ac = ch.ac ∧ out.2.rms = ch.rms ∧
    out.2.valid = ch.valid ∧ out.1 = ⟨none, .hamming, 0⟩ :=
  C9_empty_voltage_clears_spectrum ⟨.hamming, 0, 0⟩ true id id ⟨none, .hamming, 0⟩
    ⟨⟨[], 5⟩, ⟨[3, 4], 2⟩, 7, 8, 9, 10, true⟩ rfl

/-- Claim C3 (failing input): the GAUSS window coefficient at position 0 for
record length 9.  The C++ computes `windowPosition - windowEnd / 2` in
unsigned arithmetic, so at position 0 the numerator wraps to `2^32 - 4`
instead of `-4`; the resulting coefficient is `exp(-0.5*((2^32-4)/1.6)^2)`,
not the closed-form boundary value `exp(-3.125)`.  At the right end
(position `N-1 = 8`) no wrap occurs and the closed-form value is produced. -/
theorem C3_gauss_boundary_wraps :
    windowCoefficient .gauss 9 0 = Real.exp (-0.5 * ((4294967292 : ℝ) / 1.6) ^ 2) ∧
    windowCoefficient .gauss 9 0 ≠ Real.exp (-3.125) ∧
    windowCoefficient .gauss 9 8 = Real.exp (-3.125) := by
  have h0 : windowCoefficient .gauss 9 0
      = Real.exp (-0.5 * ((4294967292 : ℝ) / 1.6) ^ 2) := by
    have : usub32 0 4 = 4294967292 := by norm_num [usub32]
    simp only [windowCoefficient, usub32]
    norm_num
  refine ⟨h0, ?_, ?_⟩
  · rw [h0, Ne, Real.exp_eq_exp]
    norm_num
  · have : usub32 8 4 = 4 := by norm_num [usub32]
    simp only [windowCoefficient, usub32]
    norm_num

/-- Claim C7: the window buffer is recomputed if and only if no buffer
exists yet or the requested (window kind, sample count) pair differs from
the cached `(lastWindow, lastRecordLength)` tags; on a match the cached
array is reused verbatim and the cache is untouched.  In either case the
buffer used is `windowCoeffs w ((sampleCount) % 2^32)` — the computation is
deterministic in the (kind, length) pair alone — and well-formedness of the
cache is preserved. -/
theorem C7_window_cache_reuse (cache : WindowCache) (w : WindowFunction)
    (sampleCount : ℕ) (hwf : WindowCacheWF cache) :
    let out := windowCacheStep cache w sampleCount
    out.2 = windowCoeffs w (sampleCount % 2 ^ 32) ∧
    WindowCacheWF out.1 ∧
    ((cache.buffer ≠ none ∧ cache.lastWindow = w ∧ cache.lastRecordLength = sampleCount) →
      out = (cache, cache.buffer.getD [])) ∧
    ((cache.buffer = none ∨ cache.lastWindow ≠ w ∨ cache.lastRecordLength ≠ sampleCount) →
      out = (⟨some (windowCoeffs w (sampleCount % 2 ^ 32)), w, sampleCount % 2 ^ 32⟩,
        windowCoeffs w (sampleCount % 2 ^ 32))) := by
  intro out
  by_cases hc : cache.buffer = none ∨ cache.lastWindow ≠ w ∨ cache.lastRecordLength ≠ sampleCount
  · have hout : out = (⟨some (windowCoeffs w (sampleCount % 2 ^ 32)), w, sampleCount % 2 ^ 32⟩,
        windowCoeffs w (sampleCount % 2 ^ 32)) := by
      simp only [out, windowCacheStep, if_pos hc]
    refine ⟨by rw [hout], ?_, ?_, fun _ => hout⟩
    · rw [hout]
      exact ⟨Nat.mod_lt _ (by norm_num), fun b hb => by simpa using hb.symm⟩
    · rintro ⟨h1, h2, h3⟩
      exact absurd hc (by simp [h1, h2, h3])
  · push_neg at hc
    obtain ⟨h1, h2, h3⟩ := hc
    obtain ⟨b, hb⟩ := Option.ne_none_iff_exists'.mp h1
    have hcond : ¬(cache.buffer = none ∨ cache.lastWindow ≠ w ∨
        cache.lastRecordLength ≠ sampleCount) := by
      push_neg
      exact ⟨h1, h2, h3⟩
    have hout : out = (cache, cache.buffer.getD []) := by
      simp only [out, windowCacheStep, if_neg hcond]
    have hlt : cache.lastRecordLength < 2 ^ 32 := hwf.1
    have hbuf : b = windowCoeffs cache.lastWindow cache.lastRecordLength := hwf.2 b hb
    have hmod : sampleCount % 2 ^ 32 = sampleCount := by
      rw [← h3]
      exact Nat.mod_eq_of_lt hlt
    refine ⟨?_, ?_, fun _ => hout, ?_⟩
    · rw [hout, hb, hmod]
      simp [hbuf, h2, h3]
    · rw [hout]
      exact hwf
    · rintro (h | h | h)
      · exact absurd h h1
      · exact absurd h2 h
      · exact absurd h3 h

/-- Witness for C7 at the initial cache state (null buffer). -/
theorem C7_window_cache_reuse_witness :
    let out := windowCacheStep ⟨none, .rectangular, 0⟩ .hamming 4
    out.2 = windowCoeffs .hamming (4 % 2 ^ 32) ∧
    WindowCacheWF out.1 ∧
    ((WindowCache.buffer ⟨none, .rectangular, 0⟩ ≠ none ∧
        WindowCache.lastWindow ⟨none, .rectangular, 0⟩ = .hamming ∧
        WindowCache.lastRecordLength ⟨none, .rectangular, 0⟩ = 4) →
      out = (⟨none, .rectangular, 0⟩, (WindowCache.buffer ⟨none, .rectangular, 0⟩).getD [])) ∧
    ((WindowCache.buffer ⟨none, .rectangular, 0⟩ = none ∨
        WindowCache.lastWindow ⟨none, .rectangular, 0⟩ ≠ .hamming ∨
        WindowCache.lastRecordLength ⟨none, .rectangular, 0⟩ ≠ 4) →
      out = (⟨some (windowCoeffs .hamming (4 % 2 ^ 32)), .hamming, 4 % 2 ^ 32⟩,
        windowCoeffs .hamming (4 % 2 ^ 32))) :=
  C7_window_cache_reuse ⟨none, .rectangular, 0⟩ .hamming 4
    ⟨by norm_num, fun b hb => nomatch hb⟩

/-- Claim C8: after processing a channel with non-empty voltage samples,
`dc` is the arithmetic mean of the samples, `ac` is the RMS of the
DC-removed samples, `rms = sqrt(dc^2 + ac^2)`, and hence
`rms^2 = dc^2 + ac^2`. -/
theorem C8_statistics (post : PostSettings) (u : Bool)
    (r2hc hc2r : List ℝ → List ℝ) (cache : WindowCache) (ch : DataChannel)
    (h : ch.voltage.sample ≠ []) :
    let out := (SpectrumGenerator.processChannel post u r2hc hc2r cache ch).2
    let n : ℝ := ch.voltage.sample.length
    let dc := ch.voltage.sample.sum / n
    out.dc = dc ∧
    out.ac = Real.sqrt ((ch.voltage.sample.map fun x => (x - dc) ^ 2).sum / n) ∧
    out.rms = Real.sqrt (out.dc ^ 2 + out.ac ^ 2) ∧
    out.rms ^ 2 = out.dc ^ 2 + out.ac ^ 2 := by
  intro out n dc
  have hac2 : 0 ≤ SpectrumGenerator.ac2Of ch.voltage.sample := by
    apply div_nonneg _ (Nat.cast_nonneg _)
    apply List.sum_nonneg
    intro y hy
    simp only [List.mem_map] at hy
    obtain ⟨x, _, rfl⟩ := hy
    exact mul_self_nonneg _
  have hdc : out.dc = dc := by
    simp only [out, SpectrumGenerator.processChannel, if_neg h]
    simp [SpectrumGenerator.dcOf, dc, n]
  have hac : out.ac = Real.sqrt (SpectrumGenerator.ac2Of ch.voltage.sample) := by
    simp only [out, SpectrumGenerator.processChannel, if_neg h]
  have hrms : out.rms = Real.sqrt (dc * dc + SpectrumGenerator.ac2Of ch.voltage.sample) := by
    simp only [out, SpectrumGenerator.processChannel, if_neg h]
    simp [SpectrumGenerator.dcOf, dc, n]
  have hac2eq : SpectrumGenerator.ac2Of ch.voltage.sample
      = (ch.voltage.sample.map fun x => (x - dc) ^ 2).sum / n := by
    simp only [SpectrumGenerator.ac2Of, SpectrumGenerator.dcOf, pow_two, dc, n]
  refine ⟨hdc, by rw [hac, hac2eq], ?_, ?_⟩
  · rw [hrms, hdc, hac, Real.sq_sqrt hac2, pow_two]
  · rw [hrms, hdc, hac, Real.sq_sqrt hac2, Real.sq_sqrt, pow_two]
    exact add_nonneg (mul_self_nonneg _) hac2

open SpectrumGenerator

/-- Witness for C8 at a concrete two-sample channel. -/
theorem C8_statistics_witness :
    let out := (SpectrumGenerator.processChannel ⟨.rectangular, 0, 0⟩ false id id
      ⟨none, .rectangular, 0⟩ ⟨⟨[1, 3], 1⟩, ⟨[], 0⟩, 0, 0, 0, 0, true⟩).2
    let n : ℝ := ([1, 3] : List ℝ).length
    let dc := ([1, 3] : List ℝ).sum / n
    out.dc = dc ∧
    out.ac = Real.sqrt ((([1, 3] : List ℝ).map fun x => (x - dc) ^ 2).sum / n) ∧
    out.rms = Real.sqrt (out.dc ^ 2 + out.ac ^ 2) ∧
    out.rms ^ 2 = out.dc ^ 2 + out.ac ^ 2 :=
  C8_statistics ⟨.rectangular, 0, 0⟩ false id id ⟨none, .rectangular, 0⟩
    ⟨⟨[1, 3], 1⟩, ⟨[], 0⟩, 0, 0, 0, 0, true⟩ (by simp)

theorem dbFold_acc (off lim : ℝ) (l : List ℝ) : ∀ (acc : List ℝ) (pk : ℝ) (pos idx : ℕ),
    (l.foldl (dbStep off lim) (acc, pk, pos, idx)).1 = acc ++ l.map (dbValue off lim) := by
  induction l with
  | nil => intro acc pk pos idx; simp
  | cons b t ih =>
    intro acc pk pos idx
    simp only [List.foldl_cons, List.map_cons, dbStep]
    rw [ih]
    simp

theorem dbPass_fst (off lim : ℝ) (l : List ℝ) :
    (dbPass off lim l).1 = l.map (dbValue off lim) := by
  rw [dbPass, dbFold_acc]
  simp

theorem processChannel_spectrum_length (post : PostSettings) (u : Bool)
    (r2hc hc2r : List ℝ → List ℝ) (cache : WindowCache) (ch : DataChannel)
    (h : ch.voltage.sample ≠ []) :
    (SpectrumGenerator.processChannel post u r2hc hc2r cache ch).2.spectrum.sample.length
      = (dftLengthOf ch.voltage.sample.length + (2 ^ 32 - 1)) % 2 ^ 32 := by
  simp only [SpectrumGenerator.processChannel, if_neg h]
  split
  · rw [dbPass_fst]
    simp [length_resizeList]
  · simp [length_resizeList]

/-- Claim C6 as amended: for a channel with `2 ≤ N < 2^33` voltage samples,
one pass leaves a spectrum of length exactly `⌊N/2⌋ - 1` (the upper bound
is forced because `dftLength` is a 32-bit `unsigned int`). -/
theorem C6_spectrum_length (post : PostSettings) (u : Bool)
    (r2hc hc2r : List ℝ → List ℝ) (cache : WindowCache) (ch : DataChannel)
    (h2 : 2 ≤ ch.voltage.sample.length) (h33 : ch.voltage.sample.length < 2 ^ 33) :
    (SpectrumGenerator.processChannel post u r2hc hc2r cache ch).2.spectrum.sample.length
      = ch.voltage.sample.length / 2 - 1 := by
  have h : ch.voltage.sample ≠ [] := by
    intro he
    rw [he] at h2
    simp at h2
  rw [processChannel_spectrum_length post u r2hc hc2r cache ch h, dftLengthOf]
  omega

/-- Witness for C6 at a six-sample channel: the spectrum has `6/2 - 1 = 2`
bins. -/
theorem C6_spectrum_length_witness :
    2 ≤ ([1, 2, 3, 4, 5, 6] : List ℝ).length ∧
    (SpectrumGenerator.processChannel ⟨.hamming, 0, 0⟩ true id id ⟨none, .hamming, 0⟩
      ⟨⟨[1, 2, 3, 4, 5, 6], 1⟩, ⟨[], 0⟩, 0, 0, 0, 0, true⟩).2.spectrum.sample.length
      = ([1, 2, 3, 4, 5, 6] : List ℝ).length / 2 - 1 :=
  ⟨by simp, C6_spectrum_length ⟨.hamming, 0, 0⟩ true id id ⟨none, .hamming, 0⟩
    ⟨⟨[1, 2, 3, 4, 5, 6], 1⟩, ⟨[], 0⟩, 0, 0, 0, 0, true⟩ (by simp) (by simp)⟩

/-- Counterexample to claim C6 as stated: for `N = 2^33 + 2` samples the
spectrum length is 0, not `⌊N/2⌋ - 1 = 2^32`, because
`unsigned int dftLength = sampleCount / 2` truncates `2^32 + 1` to 1 and
the subsequent `resize(dftLength - 1)` resizes to 0. -/
theorem C6_spectrum_length_counterexample :
    (SpectrumGenerator.processChannel ⟨.hamming, 0, 0⟩ true id id ⟨none, .hamming, 0⟩
      ⟨⟨List.replicate (2 ^ 33 + 2) 0, 1⟩, ⟨[], 0⟩, 0, 0, 0, 0, true⟩).2.spectrum.sample.length
      = 0 ∧
    (List.replicate (2 ^ 33 + 2) (0 : ℝ)).length / 2 - 1 = 2 ^ 32 ∧ (0 : ℕ) ≠ 2 ^ 32 := by
  have hne : (List.replicate (2 ^ 33 + 2) (0 : ℝ)) ≠ [] := by
    intro he
    have hl := congrArg List.length he
    rw [List.length_replicate] at hl
    exact absurd hl (by norm_num)
  refine ⟨?_, by rw [List.length_replicate]; norm_num, by norm_num⟩
  rw [processChannel_spectrum_length _ _ _ _ _ _ hne, List.length_replicate]
  norm_num [dftLengthOf]

/-- Claim C10 (failing input): a channel with exactly one voltage sample is
not guarded.  The degenerate path is taken: `dftLength = 0`, and
`spectrum.sample.resize(dftLength - 1)` wraps to a resize to `2^32 - 1`
entries, so after the pass the spectrum holds `4294967295` bins. -/
theorem C10_single_sample_not_guarded :
    dftLengthOf ([(0 : ℝ)] : List ℝ).length = 0 ∧
    (SpectrumGenerator.processChannel ⟨.hamming, 0, 0⟩ true id id ⟨none, .hamming, 0⟩
      ⟨⟨[0], 1⟩, ⟨[], 0⟩, 0, 0, 0, 0, true⟩).2.spectrum.sample.length = 2 ^ 32 - 1 := by
  refine ⟨by simp [dftLengthOf], ?_⟩
  rw [processChannel_spectrum_length _ _ _ _ _ _ (by simp)]
  simp [dftLengthOf]

/-- Claim C5: the dB conversion runs if and only if the channel's spectrum
display is enabled or the autocorrelation frequency estimate is 0; when it
runs, every bin of the truncated spectrum becomes
`20*log10(|bin|) + offset` with `offset = 60 - spectrumReference -
20*log10(dftLength)`, where any value below `offsetLimit = spectrumLimit -
spectrumReference` is set exactly to `offsetLimit` and values at or above
it are left unclamped; when it does not run, the truncated spectrum is left
as the raw magnitudes. -/
theorem C5_db_conversion (post : PostSettings) (u : Bool)
    (r2hc hc2r : List ℝ → List ℝ) (cache : WindowCache) (ch : DataChannel)
    (h : ch.voltage.sample ≠ []) :
    let sampleCount := ch.voltage.sample.length
    let window := (windowCacheStep cache post.spectrumWindow sampleCount).2
    let dftLength := dftLengthOf sampleCount
    let fftOut := resizeList sampleCount (r2hc (windowedOf window ch.voltage.sample))
    let truncated := resizeList ((dftLength + (2 ^ 32 - 1)) % 2 ^ 32)
      (magnitudeSpectrum fftOut sampleCount dftLength)
    let correlation := resizeList sampleCount
      (hc2r (conjugateComplex fftOut sampleCount dftLength))
    let frequency0 := autocorrFrequency ch.voltage.interval correlation sampleCount
    let offset := 60 - post.spectrumReference - 20 * Real.logb 10 (dftLength : ℝ)
    let offsetLimit := post.spectrumLimit - post.spectrumReference
    let out := (SpectrumGenerator.processChannel post u r2hc hc2r cache ch).2
    ((u = true ∨ frequency0 = 0) →
      out.spectrum.sample = truncated.map fun b =>
        if 20 * Real.logb 10 |b| + offset < offsetLimit then offsetLimit
        else 20 * Real.logb 10 |b| + offset) ∧
    (¬(u = true ∨ frequency0 = 0) → out.spectrum.sample = truncated) := by
  intro sampleCount window dftLength fftOut truncated correlation frequency0 offset
    offsetLimit out
  have hval : ∀ b : ℝ, dbValue offset offsetLimit b
      = if 20 * Real.logb 10 |b| + offset < offsetLimit then offsetLimit
        else 20 * Real.logb 10 |b| + offset := by
    intro b
    simp [dbValue, gt_iff_lt]
  have hsample : out.spectrum.sample
      = (if (u : Prop) ∨ 0 = frequency0 then dbPass offset offsetLimit truncated
         else (truncated, (0 : ℝ), (0 : ℕ), (0 : ℕ))).1 := by
    simp only [out, frequency0, correlation, truncated, fftOut, dftLength, window,
      sampleCount, offset, offsetLimit]
    simp only [SpectrumGenerator.processChannel, if_neg h]
  constructor
  · intro hcond
    have hcond' : (u : Prop) ∨ 0 = frequency0 := by
      rcases hcond with hu | hf
      · exact Or.inl (by simp [hu])
      · exact Or.inr hf.symm
    rw [hsample, if_pos hcond', dbPass_fst]
    exact List.map_congr_left fun b _ => hval b
  · intro hcond
    have hcond' : ¬((u : Prop) ∨ 0 = frequency0) := by
      intro hor
      apply hcond
      rcases hor with hu | hf
      · exact Or.inl hu
      · exact Or.inr hf.symm
    rw [hsample, if_neg hcond']

/-- Witness for C5 at a concrete two-sample channel with the spectrum
display enabled. -/
theorem C5_db_conversion_witness :
    let sampleCount := ([1, 2] : List ℝ).length
    let window := (windowCacheStep ⟨none, .rectangular, 0⟩ .rectangular sampleCount).2
    let dftLength := dftLengthOf sampleCount
    let fftOut := resizeList sampleCount (id (windowedOf window [1, 2]))
    let truncated := resizeList ((dftLength + (2 ^ 32 - 1)) % 2 ^ 32)
      (magnitudeSpectrum fftOut sampleCount dftLength)
    let correlation := resizeList sampleCount
      (id (conjugateComplex fftOut sampleCount dftLength))
    let frequency0 := autocorrFrequency 1 correlation sampleCount
    let offset := 60 - (0 : ℝ) - 20 * Real.logb 10 (dftLength : ℝ)
    let offsetLimit := (0 : ℝ) - 0
    let out := (SpectrumGenerator.processChannel ⟨.rectangular, 0, 0⟩ true id id
      ⟨none, .rectangular, 0⟩ ⟨⟨[1, 2], 1⟩, ⟨[], 0⟩, 0, 0, 0, 0, true⟩).2
    ((true = true ∨ frequency0 = 0) →
      out.spectrum.sample = truncated.map fun b =>
        if 20 * Real.logb 10 |b| + offset < offsetLimit then offsetLimit
        else 20 * Real.logb 10 |b| + offset) ∧
    (¬(true = true ∨ frequency0 = 0) → out.spectrum.sample = truncated) :=
  C5_db_conversion ⟨.rectangular, 0, 0⟩ true id id ⟨none, .rectangular, 0⟩
    ⟨⟨[1, 2], 1⟩, ⟨[], 0⟩, 0, 0, 0, 0, true⟩ (by simp)

theorem mathStep_channels_length (scope : MathScopeSettings) (r : PPresult) (j : ℕ) :
    (MathChannelGenerator.step scope r j).channels.length = r.channels.length := by
  rw [MathChannelGenerator.step]
  split
  · rfl
  · simp [PPresult.setData]

theorem mathStep_data_ne (scope : MathScopeSettings) (r : PPresult) {i j : ℕ} (hij : i ≠ j) :
    (MathChannelGenerator.step scope r j).data i = r.data i := by
  rw [MathChannelGenerator.step]
  split
  · rfl
  · simp [PPresult.data, PPresult.setData, List.getD_eq_getElem?_getD,
      List.getElem?_set_ne (Ne.symm hij)]

theorem mathFold_data_not_mem (scope : MathScopeSettings) :
    ∀ (l : List ℕ) (r : PPresult) (i : ℕ), i ∉ l →
      ((l.foldl (MathChannelGenerator.step scope) r).data i = r.data i) := by
  intro l
  induction l with
  | nil => intro r i _; rfl
  | cons a t ih =>
    intro r i hi
    simp only [List.foldl_cons]
    rw [ih _ _ fun h => hi (List.mem_cons_of_mem _ h)]
    exact mathStep_data_ne scope r fun h => hi (h ▸ List.mem_cons_self _ _)

theorem mathFold_channels_length (scope : MathScopeSettings) :
    ∀ (l : List ℕ) (r : PPresult),
      ((l.foldl (MathChannelGenerator.step scope) r).channels.length = r.channels.length) := by
  intro l
  induction l with
  | nil => intro r; rfl
  | cons a t ih =>
    intro r
    simp only [List.foldl_cons]
    rw [ih, mathStep_channels_length]

/-- Claim C4: when both physical channels 0 and 1 have non-empty voltage
samples, `MathChannelGenerator::process` sets, for every enabled derived
channel `i`, `output = zipWith op ch1 ch2` (so `output[k] = op(ch1[k],
ch2[k])` for every `k` below the shorter length), the output length is
exactly the shorter input length with no error for unequal lengths, and the
output sampling interval is copied from channel 0. -/
theorem C4_math_channel (scope : MathScopeSettings) (pc : ℕ) (r : PPresult) (i : ℕ)
    (hpc : 2 ≤ pc) (hi1 : pc ≤ i) (hi2 : i < r.channels.length)
    (h0 : (r.data 0).voltage.sample ≠ []) (h1 : (r.data 1).voltage.sample ≠ [])
    (hen : scope.voltageUsed i ∨ scope.spectrumUsed i) :
    let out := (MathChannelGenerator.process scope pc r).data i
    out.voltage.sample = List.zipWith (mathOp scope.mathMode)
      (r.data 0).voltage.sample (r.data 1).voltage.sample ∧
    out.voltage.sample.length
      = min (r.data 0).voltage.sample.length (r.data 1).voltage.sample.length ∧
    (∀ k, k < min (r.data 0).voltage.sample.length (r.data 1).voltage.sample.length →
      out.voltage.sample.getD k 0 = mathOp scope.mathMode
        ((r.data 0).voltage.sample.getD k 0) ((r.data 1).voltage.sample.getD k 0)) ∧
    out.voltage.interval = (r.data 0).voltage.interval := by
  intro out
  have hproc : MathChannelGenerator.process scope pc r
      = (List.range' pc (r.channels.length - pc)).foldl (MathChannelGenerator.step scope) r := by
    rw [MathChannelGenerator.process, if_neg]
    push_neg
    exact ⟨h0, h1⟩
  obtain ⟨m, hm⟩ : ∃ m, r.channels.length - i = m + 1 := ⟨r.channels.length - i - 1, by omega⟩
  have e1 : pc + 1 * (i - pc) = i := by omega
  have e2 : (m + 1) + (i - pc) = r.channels.length - pc := by omega
  have hL : List.range' pc (r.channels.length - pc)
      = List.range' pc (i - pc) ++ i :: List.range' (i + 1) m := by
    calc List.range' pc (r.channels.length - pc)
        = List.range' pc ((m + 1) + (i - pc)) := by rw [e2]
      _ = List.range' pc (i - pc) ++ List.range' (pc + 1 * (i - pc)) (m + 1) :=
          (List.range'_append _ _ _ _).symm
      _ = List.range' pc (i - pc) ++ i :: List.range' (i + 1) m := by
          rw [e1, List.range'_succ]
  have hnotmem1 : (0 : ℕ) ∉ List.range' pc (i - pc) := by
    intro hmem
    rw [List.mem_range'_1] at hmem
    omega
  have hnotmem2 : (1 : ℕ) ∉ List.range' pc (i - pc) := by
    intro hmem
    rw [List.mem_range'_1] at hmem
    omega
  have hnotmemT : i ∉ List.range' (i + 1) m := by
    intro hmem
    rw [List.mem_range'_1] at hmem
    omega
  set R1 := (List.range' pc (i - pc)).foldl (MathChannelGenerator.step scope) r with hR1
  have hd0 : R1.data 0 = r.data 0 := mathFold_data_not_mem scope _ _ _ hnotmem1
  have hd1 : R1.data 1 = r.data 1 := mathFold_data_not_mem scope _ _ _ hnotmem2
  have hlen1 : R1.channels.length = r.channels.length := mathFold_channels_length scope _ _
  have hen' : ¬(¬scope.voltageUsed i ∧ ¬scope.spectrumUsed i) := by
    rcases hen with hv | hs
    · exact fun hc => absurd hv hc.1
    · exact fun hc => absurd hs hc.2
  have hstep : (MathChannelGenerator.step scope R1 i).data i
      = { R1.data i with voltage :=
          { sample := List.zipWith (mathOp scope.mathMode)
              (r.data 0).voltage.sample (r.data 1).voltage.sample
            interval := (r.data 0).voltage.interval } } := by
    rw [MathChannelGenerator.step, if_neg hen', hd0, hd1]
    simp only [PPresult.data, PPresult.setData, List.getD_eq_getElem?_getD,
      List.getElem?_set_self (show i < R1.channels.length by rw [hlen1]; exact hi2),
      Option.getD_some]
  have hout : out = { R1.data i with voltage :=
      { sample := List.zipWith (mathOp scope.mathMode)
          (r.data 0).voltage.sample (r.data 1).voltage.sample
        interval := (r.data 0).voltage.interval } } := by
    simp only [out]
    rw [hproc, hL, List.foldl_append, List.foldl_cons, ← hR1,
      mathFold_data_not_mem scope _ _ _ hnotmemT, hstep]
  refine ⟨by rw [hout], ?_, ?_, by rw [hout]⟩
  · rw [hout]
    simp [List.length_zipWith]
  · intro k hk
    have hk1 : k < (r.data 0).voltage.sample.length := lt_of_lt_of_le hk (min_le_left _ _)
    have hk2 : k < (r.data 1).voltage.sample.length := lt_of_lt_of_le hk (min_le_right _ _)
    have hkz : k < (List.zipWith (mathOp scope.mathMode)
        (r.data 0).voltage.sample (r.data 1).voltage.sample).length := by
      rw [List.length_zipWith]
      exact lt_inf_iff.mpr ⟨hk1, hk2⟩
    rw [hout]
    simp only [List.getD_eq_getElem?_getD, List.getElem?_eq_getElem hkz,
      List.getElem?_eq_getElem hk1, List.getElem?_eq_getElem hk2, Option.getD_some]
    exact List.getElem_zipWith

/-- Witness for C4: three channels, ch1 has 5 samples, ch2 has 3, derived
channel 2 enabled for voltage, mode ADD. -/
theorem C4_math_channel_witness :
    let scope : MathScopeSettings := ⟨fun j => decide (j = 2), fun _ => false, .addCh1Ch2⟩
    let r : PPresult := ⟨[⟨⟨[1, 2, 3, 4, 5], 7⟩, ⟨[], 0⟩, 0, 0, 0, 0, true⟩,
      ⟨⟨[4, 5, 6], 1⟩, ⟨[], 0⟩, 0, 0, 0, 0, true⟩,
      ⟨⟨[], 0⟩, ⟨[], 0⟩, 0, 0, 0, 0, true⟩]⟩
    let out := (MathChannelGenerator.process scope 2 r).data 2
    out.voltage.sample = List.zipWith (mathOp scope.mathMode)
      (r.data 0).voltage.sample (r.data 1).voltage.sample ∧
    out.voltage.sample.length
      = min (r.data 0).voltage.sample.length (r.data 1).voltage.sample.length ∧
    (∀ k, k < min (r.data 0).voltage.sample.length (r.data 1).voltage.sample.length →
      out.voltage.sample.getD k 0 = mathOp scope.mathMode
        ((r.data 0).voltage.sample.getD k 0) ((r.data 1).voltage.sample.getD k 0)) ∧
    out.voltage.interval = (r.data 0).voltage.interval :=
  C4_math_channel ⟨fun j => decide (j = 2), fun _ => false, .addCh1Ch2⟩ 2
    ⟨[⟨⟨[1, 2, 3, 4, 5], 7⟩, ⟨[], 0⟩, 0, 0, 0, 0, true⟩,
      ⟨⟨[4, 5, 6], 1⟩, ⟨[], 0⟩, 0, 0, 0, 0, true⟩,
      ⟨⟨[], 0⟩, ⟨[], 0⟩, 0, 0, 0, 0, true⟩]⟩ 2
    (by norm_num) (by norm_num) (by simp) (by simp [PPresult.data])
    (by simp [PPresult.data]) (Or.inl (by simp))

theorem corrScanStep_fst (corr : List ℝ) (s : ℝ × ℝ × ℕ) (p : ℕ) :
    (corrScanStep corr s p).1 = min s.1 (corr.getD p 0) := by
  rw [corrScanStep]
  split
  · next hc => exact (min_eq_left (le_of_lt hc.2)).symm
  · split
    · next _ hc => exact (min_eq_right (le_of_lt hc)).symm
    · next _ hc => exact (min_eq_left (le_of_not_lt hc)).symm

theorem corrScanFold_fst (corr : List ℝ) :
    ∀ (k : ℕ) (s : ℝ × ℝ × ℕ),
      (((List.range' 1 k).foldl (corrScanStep corr) s).1
        = ((List.range' 1 k).map fun j => corr.getD j 0).foldl min s.1) := by
  intro k
  induction k with
  | zero => intro s; rfl
  | succ k ih =>
    intro s
    rw [List.range'_concat, List.foldl_append, List.map_append, List.foldl_append]
    simp only [List.foldl_cons, List.foldl_nil, List.map_cons, List.map_nil]
    rw [corrScanStep_fst, ih]

theorem corrScan_fst (corr : List ℝ) (n : ℕ) :
    (corrScan corr n).1 = runningMin corr (n / 2) := by
  rw [corrScan, corrScanFold_fst, runningMin]
  rcases Nat.eq_zero_or_pos (n / 2) with h0 | hpos
  · rw [h0]
    rfl
  · obtain ⟨p, hp⟩ : ∃ p, n / 2 = p + 1 := ⟨n / 2 - 1, by omega⟩
    rw [hp, List.range_eq_range', List.range'_succ]
    simp only [List.map_cons, List.foldl_cons, min_self]
    rfl

/-- Claim C1 as amended: the scan over positions `1..N/2-1` keeps a running
maximum, not a first local maximum: the recorded `peakPosition` is
overwritten exactly when a value strictly exceeds both the best correlation
so far (initialized to 0) and the running minimum seen so far (the minimum
of the correlation prefix, initialized to `correlation[0]`); the strict `>`
comparison means a later value equal to the current peak never overwrites
the recorded peak or its position; and the pre-override frequency is
`1/(voltage.interval * peakPosition)` if `peakPosition > 100` and 0
otherwise. -/
theorem C1_autocorrelation_scan (corr : List ℝ) (n : ℕ) (interval : ℝ) :
    autocorrFrequency interval corr n
      = (if 100 < peakPositionOf corr n
         then 1 / (interval * (peakPositionOf corr n : ℝ)) else 0) ∧
    (∀ (s : ℝ × ℝ × ℕ) (p : ℕ), corr.getD p 0 = s.2.1 →
      (corrScanStep corr s p).2 = s.2) ∧
    (corrScan corr n).1 = runningMin corr (n / 2) := by
  refine ⟨rfl, ?_, corrScan_fst corr n⟩
  intro s p hp
  rw [corrScanStep, if_neg]
  · split
    · rfl
    · rfl
  · rw [hp]
    exact fun hc => lt_irrefl _ hc.1

/-- Witness for C1 (amended) on a concrete correlation list: the frequency
formula, the no-overwrite-on-equal step (position 1 carries the value 5,
equal to the current peak), and the running-minimum characterization. -/
theorem C1_autocorrelation_scan_witness :
    autocorrFrequency 1 [0, 5, 1, 10, 0, 0, 0, 0] 8
      = (if 100 < peakPositionOf [0, 5, 1, 10, 0, 0, 0, 0] 8
         then 1 / (1 * (peakPositionOf [0, 5, 1, 10, 0, 0, 0, 0] 8 : ℝ)) else 0) ∧
    (corrScanStep [0, 5, 1, 10, 0, 0, 0, 0] (0, 5, 7) 1).2 = (((0 : ℝ), (5 : ℝ), 7) : ℝ × ℝ × ℕ).2 ∧
    (corrScan [0, 5, 1, 10, 0, 0, 0, 0] 8).1 = runningMin [0, 5, 1, 10, 0, 0, 0, 0] (8 / 2) :=
  ⟨(C1_autocorrelation_scan [0, 5, 1, 10, 0, 0, 0, 0] 8 1).1,
   (C1_autocorrelation_scan [0, 5, 1, 10, 0, 0, 0, 0] 8 1).2.1 (0, 5, 7) 1 (by norm_num),
   (C1_autocorrelation_scan [0, 5, 1, 10, 0, 0, 0, 0] 8 1).2.2⟩

/-- Counterexample to claim C1 as stated: on the correlation sequence
`[0, 5, 1, 10, 0, 0, 0, 0]` (N = 8, scanned positions 1..3) the first local
maximum exceeding the running minimum is at position 1 (value 5), but the
code records `peakPosition = 3` (value 10, a later strict improvement of
the running maximum). -/
theorem C1_autocorrelation_scan_counterexample :
    peakPositionOf [0, 5, 1, 10, 0, 0, 0, 0] 8 = 3 ∧
    IsFirstLocalMaxAboveMin [0, 5, 1, 10, 0, 0, 0, 0] 8 1 ∧
    (3 : ℕ) ≠ 1 := by
  refine ⟨?_, ⟨⟨by norm_num, by norm_num, by norm_num, by norm_num, ?_⟩, ?_⟩, by norm_num⟩
  · norm_num [peakPositionOf, corrScan, corrScanStep, List.range']
  · rw [runningMin, show List.range 1 = [0] from rfl]
    norm_num
  · intro q hq1 hq2
    omega

theorem le_foldl_max (l : List ℝ) : ∀ a : ℝ, a ≤ l.foldl max a := by
  induction l with
  | nil => intro a; exact le_refl a
  | cons b t ih =>
    intro a
    exact le_trans (le_max_left a b) (ih (max a b))

theorem dbFold_peak (off lim : ℝ) :
    ∀ (l acc : List ℝ) (pk : ℝ) (pos : ℕ),
      ((l.foldl (dbStep off lim) (acc, pk, pos, acc.length)).2.1
          = (l.map (dbValue off lim)).foldl max pk) ∧
      ((l.foldl (dbStep off lim) (acc, pk, pos, acc.length)).2.1 = pk →
        (l.foldl (dbStep off lim) (acc, pk, pos, acc.length)).2.2.1 = pos) ∧
      (pk < (l.foldl (dbStep off lim) (acc, pk, pos, acc.length)).2.1 →
        ∃ j, j < l.length ∧
          (l.foldl (dbStep off lim) (acc, pk, pos, acc.length)).2.2.1 = acc.length + j ∧
          (l.map (dbValue off lim)).getD j 0
            = (l.foldl (dbStep off lim) (acc, pk, pos, acc.length)).2.1 ∧
          ∀ i, i < j → (l.map (dbValue off lim)).getD i 0
            < (l.foldl (dbStep off lim) (acc, pk, pos, acc.length)).2.1) ∧
      (∀ i, i < l.length → (l.map (dbValue off lim)).getD i 0
          ≤ (l.foldl (dbStep off lim) (acc, pk, pos, acc.length)).2.1) := by
  intro l
  induction l with
  | nil =>
    intro acc pk pos
    exact ⟨rfl, fun _ => rfl, fun h => absurd h (lt_irrefl pk), fun i hi => absurd hi (by simp)⟩
  | cons b t ih =>
    intro acc pk pos
    have hstep : dbStep off lim (acc, pk, pos, acc.length) b
        = (acc ++ [dbValue off lim b],
           (if pk < dbValue off lim b then ((dbValue off lim b), acc.length) else (pk, pos)).1,
           (if pk < dbValue off lim b then ((dbValue off lim b), acc.length) else (pk, pos)).2,
           (acc ++ [dbValue off lim b]).length) := by
      simp [dbStep]
    by_cases hv : pk < dbValue off lim b
    · rw [if_pos hv] at hstep
      have ihv := ih (acc ++ [dbValue off lim b]) (dbValue off lim b) acc.length
      obtain ⟨ih1, ih2, ih3, ih4⟩ := ihv
      have hfold : (b :: t).foldl (dbStep off lim) (acc, pk, pos, acc.length)
          = t.foldl (dbStep off lim)
            (acc ++ [dbValue off lim b], dbValue off lim b, acc.length,
             (acc ++ [dbValue off lim b]).length) := by
        rw [List.foldl_cons, hstep]
      have hmax : max pk (dbValue off lim b) = dbValue off lim b := max_eq_right (le_of_lt hv)
      have hle : dbValue off lim b
          ≤ (t.map (dbValue off lim)).foldl max (dbValue off lim b) := le_foldl_max _ _
      refine ⟨?_, ?_, ?_, ?_⟩
      · rw [hfold, ih1, List.map_cons, List.foldl_cons, hmax]
      · intro heq
        rw [hfold, ih1] at heq
        exact absurd (lt_of_lt_of_le hv (heq ▸ hle)) (lt_irrefl pk)
      · intro _
        rw [hfold]
        by_cases hEq : (t.foldl (dbStep off lim)
            (acc ++ [dbValue off lim b], dbValue off lim b, acc.length,
             (acc ++ [dbValue off lim b]).length)).2.1 = dbValue off lim b
        · refine ⟨0, by simp, by rw [ih2 hEq]; omega, ?_, fun i hi => absurd hi (Nat.not_lt_zero i)⟩
          rw [hEq]
          simp
        · have hlt : dbValue off lim b < (t.foldl (dbStep off lim)
              (acc ++ [dbValue off lim b], dbValue off lim b, acc.length,
               (acc ++ [dbValue off lim b]).length)).2.1 :=
            lt_of_le_of_ne (ih1 ▸ hle) (Ne.symm hEq)
          obtain ⟨j, hj1, hj2, hj3, hj4⟩ := ih3 hlt
          refine ⟨j + 1, by simpa using hj1, ?_, by simpa using hj3, ?_⟩
          · rw [hj2]
            simp
            omega
          · intro i hi
            cases i with
            | zero => simpa using hlt
            | succ i' =>
              have := hj4 i' (by omega)
              simpa using this
      · intro i hi
        rw [hfold]
        cases i with
        | zero =>
          simp only [List.map_cons, List.getD_cons_zero]
          exact le_trans hle (le_of_eq ih1.symm)
        | succ i' =>
          have := ih4 i' (by simpa using hi)
          simpa using this
    · rw [if_neg hv] at hstep
      have ihv := ih (acc ++ [dbValue off lim b]) pk pos
      obtain ⟨ih1, ih2, ih3, ih4⟩ := ihv
      have hfold : (b :: t).foldl (dbStep off lim) (acc, pk, pos, acc.length)
          = t.foldl (dbStep off lim)
            (acc ++ [dbValue off lim b], pk, pos, (acc ++ [dbValue off lim b]).length) := by
        rw [List.foldl_cons, hstep]
      have hmax : max pk (dbValue off lim b) = pk := max_eq_left (le_of_not_lt hv)
      refine ⟨?_, ?_, ?_, ?_⟩
      · rw [hfold, ih1, List.map_cons, List.foldl_cons, hmax]
      · intro heq
        rw [hfold] at heq ⊢
        exact ih2 heq
      · intro hlt
        rw [hfold] at hlt ⊢
        obtain ⟨j, hj1, hj2, hj3, hj4⟩ := ih3 hlt
        refine ⟨j + 1, by simpa using hj1, ?_, by simpa using hj3, ?_⟩
        · rw [hj2]
          simp
          omega
        · intro i hi
          cases i with
          | zero =>
            simp only [List.map_cons, List.getD_cons_zero]
            exact lt_of_le_of_lt (le_of_not_lt hv) hlt
          | succ i' =>
            have := hj4 i' (by omega)
            simpa using this
      · intro i hi
        rw [hfold]
        cases i with
        | zero =>
          simp only [List.map_cons, List.getD_cons_zero]
          exact le_trans (le_of_not_lt hv) (ih1 ▸ le_foldl_max _ _)
        | succ i' =>
          have := ih4 i' (by simpa using hi)
          simpa using this

theorem dbPass_peak (off lim : ℝ) (l : List ℝ) :
    ((dbPass off lim l).2.1 = l.headD 0 → (dbPass off lim l).2.2.1 = 0) ∧
    (l.headD 0 < (dbPass off lim l).2.1 →
      ∃ j, j < l.length ∧ (dbPass off lim l).2.2.1 = j ∧
        (l.map (dbValue off lim)).getD j 0 = (dbPass off lim l).2.1 ∧
        ∀ i, i < j → (l.map (dbValue off lim)).getD i 0 < (dbPass off lim l).2.1) ∧
    (∀ i, i < l.length → (l.map (dbValue off lim)).getD i 0 ≤ (dbPass off lim l).2.1) := by
  obtain ⟨f1, f2, f3, f4⟩ := dbFold_peak off lim l [] (l.headD 0) 0
  have he : dbPass off lim l
      = l.foldl (dbStep off lim) ([], l.headD 0, 0, ([] : List ℝ).length) := rfl
  rw [he]
  refine ⟨f2, ?_, f4⟩
  intro hlt
  obtain ⟨j, hj1, hj2, hj3, hj4⟩ := f3 hlt
  exact ⟨j, hj1, hj2.trans (Nat.zero_add j), hj3, hj4⟩

/-- Claim C2 as amended: whenever the dB conversion pass runs, `peakPos` is
the first index at which the converted values attain their maximum,
provided that maximum strictly exceeds the initial reference value
`peakSpectrum`, which is the raw (pre-conversion) first spectrum bin; if no
converted value exceeds that raw reference, `peakPos` stays 0.  For every
run in which `peakPos` is non-zero the final channel frequency equals
`spectrum.interval * peakPos`; otherwise the autocorrelation estimate is
kept. -/
theorem C2_db_peak_override (post : PostSettings) (u : Bool)
    (r2hc hc2r : List ℝ → List ℝ) (cache : WindowCache) (ch : DataChannel)
    (h : ch.voltage.sample ≠ []) :
    let sampleCount := ch.voltage.sample.length
    let window := (windowCacheStep cache post.spectrumWindow sampleCount).2
    let dftLength := dftLengthOf sampleCount
    let fftOut := resizeList sampleCount (r2hc (windowedOf window ch.voltage.sample))
    let truncated := resizeList ((dftLength + (2 ^ 32 - 1)) % 2 ^ 32)
      (magnitudeSpectrum fftOut sampleCount dftLength)
    let correlation := resizeList sampleCount
      (hc2r (conjugateComplex fftOut sampleCount dftLength))
    let frequency0 := autocorrFrequency ch.voltage.interval correlation sampleCount
    let offset := 60 - post.spectrumReference - 20 * Real.logb 10 (dftLength : ℝ)
    let offsetLimit := post.spectrumLimit - post.spectrumReference
    let db := if (u : Prop) ∨ 0 = frequency0 then dbPass offset offsetLimit truncated
      else (truncated, 0, 0, 0)
    let out := (SpectrumGenerator.processChannel post u r2hc hc2r cache ch).2
    (out.frequency
        = if db.2.2.1 ≠ 0 then out.spectrum.interval * (db.2.2.1 : ℝ) else frequency0) ∧
    (((u : Prop) ∨ 0 = frequency0) →
      (db.2.1 = truncated.headD 0 → db.2.2.1 = 0) ∧
      (truncated.headD 0 < db.2.1 →
        ∃ j, j < truncated.length ∧ db.2.2.1 = j ∧
          (truncated.map (dbValue offset offsetLimit)).getD j 0 = db.2.1 ∧
          (∀ i, i < j → (truncated.map (dbValue offset offsetLimit)).getD i 0 < db.2.1) ∧
          (∀ i, i < truncated.length →
            (truncated.map (dbValue offset offsetLimit)).getD i 0 ≤ db.2.1))) := by
  intro sampleCount window dftLength fftOut truncated correlation frequency0 offset
    offsetLimit db out
  have hint : out.spectrum.interval = 1 / ch.voltage.interval / (sampleCount : ℝ) := by
    simp only [out, sampleCount]
    simp only [SpectrumGenerator.processChannel, if_neg h]
  have hfreq : out.frequency
      = if db.2.2.1 ≠ 0 then (1 / ch.voltage.interval / (sampleCount : ℝ)) * (db.2.2.1 : ℝ)
        else frequency0 := by
    simp only [out, db, frequency0, correlation, truncated, fftOut, dftLength, window,
      sampleCount, offset, offsetLimit]
    simp only [SpectrumGenerator.processChannel, if_neg h]
  obtain ⟨f2, f3, f4⟩ := dbPass_peak offset offsetLimit truncated
  refine ⟨by rw [hfreq, hint], ?_⟩
  intro hcond
  have hdb : db = dbPass offset offsetLimit truncated := by
    simp only [db, if_pos hcond]
  rw [hdb]
  constructor
  · exact f2
  · intro hlt
    obtain ⟨j, hj1, hj2, hj3, hj4⟩ := f3 hlt
    exact ⟨j, hj1, hj2, hj3, hj4, f4⟩

/-- Witness for C2 (amended) at a concrete two-sample channel with the
spectrum display enabled. -/
theorem C2_db_peak_override_witness :
    let sampleCount := ([1, 2] : List ℝ).length
    let window := (windowCacheStep ⟨none, .rectangular, 0⟩ .rectangular sampleCount).2
    let dftLength := dftLengthOf sampleCount
    let fftOut := resizeList sampleCount (id (windowedOf window [1, 2]))
    let truncated := resizeList ((dftLength + (2 ^ 32 - 1)) % 2 ^ 32)
      (magnitudeSpectrum fftOut sampleCount dftLength)
    let correlation := resizeList sampleCount
      (id (conjugateComplex fftOut sampleCount dftLength))
    let frequency0 := autocorrFrequency 1 correlation sampleCount
    let offset := 60 - (0 : ℝ) - 20 * Real.logb 10 (dftLength : ℝ)
    let offsetLimit := (0 : ℝ) - 0
    let db := if (true : Bool) = true ∨ (0 : ℝ) = frequency0
      then dbPass offset offsetLimit truncated else (truncated, 0, 0, 0)
    let out := (SpectrumGenerator.processChannel ⟨.rectangular, 0, 0⟩ true id id
      ⟨none, .rectangular, 0⟩ ⟨⟨[1, 2], 1⟩, ⟨[], 0⟩, 0, 0, 0, 0, true⟩).2
    (out.frequency
        = if db.2.2.1 ≠ 0 then out.spectrum.interval * (db.2.2.1 : ℝ) else frequency0) ∧
    (((true : Bool) = true ∨ (0 : ℝ) = frequency0) →
      (db.2.1 = truncated.headD 0 → db.2.2.1 = 0) ∧
      (truncated.headD 0 < db.2.1 →
        ∃ j, j < truncated.length ∧ db.2.2.1 = j ∧
          (truncated.map (dbValue offset offsetLimit)).getD j 0 = db.2.1 ∧
          (∀ i, i < j → (truncated.map (dbValue offset offsetLimit)).getD i 0 < db.2.1) ∧
          (∀ i, i < truncated.length →
            (truncated.map (dbValue offset offsetLimit)).getD i 0 ≤ db.2.1))) :=
  C2_db_peak_override ⟨.rectangular, 0, 0⟩ true id id ⟨none, .rectangular, 0⟩
    ⟨⟨[1, 2], 1⟩, ⟨[], 0⟩, 0, 0, 0, 0, true⟩ (by simp)

/-- Counterexample to claim C2 as stated: a run of the dB conversion pass
(bins `[1000, 2000, 0, ..., 0]`, `offset = -20`, `offsetLimit = -120`,
reached by `processChannel` with spectrum display enabled) in which the
maximum converted dB value is attained only at index 1, yet `peakPos` stays
0 — the initial reference `peakSpectrum` is the raw first bin (1000), which
no converted dB value exceeds — and consequently the final frequency is not
`spectrum.interval * 1` but the autocorrelation result 0. -/
theorem C2_db_peak_override_counterexample :
    let out := (SpectrumGenerator.processChannel ⟨.rectangular, 60, -60⟩ true
      (fun _ => [1000, 2000]) (fun _ => []) ⟨none, .rectangular, 0⟩
      ⟨⟨List.replicate 20 1, 1⟩, ⟨[], 0⟩, 0, 0, 0, 0, true⟩).2
    out.spectrum.sample = (dbPass (-20) (-120) [1000, 2000, 0, 0, 0, 0, 0, 0, 0]).1 ∧
    (dbPass (-20) (-120) [1000, 2000, 0, 0, 0, 0, 0, 0, 0]).2.2.1 = 0 ∧
    IsMaxIdx (dbPass (-20) (-120) [1000, 2000, 0, 0, 0, 0, 0, 0, 0]).1 1 ∧
    ¬IsMaxIdx (dbPass (-20) (-120) [1000, 2000, 0, 0, 0, 0, 0, 0, 0]).1 0 ∧
    out.frequency = 0 := by
  intro out
  have hb1 : (0 : ℝ) ≤ Real.logb 10 1000 := Real.logb_nonneg (by norm_num) (by norm_num)
  have hb2 : Real.logb 10 1000 < Real.logb 10 2000 :=
    Real.logb_lt_logb (by norm_num) (by norm_num) (by norm_num)
  have hb3 : Real.logb 10 2000 < 4 := by
    rw [Real.logb_lt_iff_lt_rpow (by norm_num) (by norm_num),
      show ((4 : ℝ)) = ((4 : ℕ) : ℝ) by norm_num, Real.rpow_natCast]
    norm_num
  have hv1 : dbValue (-20) (-120) 1000 = 20 * Real.logb 10 1000 - 20 := by
    simp only [dbValue]
    rw [show |(1000 : ℝ)| = 1000 by norm_num, if_neg (by intro hcon; linarith)]
    ring
  have hv2 : dbValue (-20) (-120) 2000 = 20 * Real.logb 10 2000 - 20 := by
    simp only [dbValue]
    rw [show |(2000 : ℝ)| = 2000 by norm_num, if_neg (by intro hcon; linarith)]
    ring
  have hv0 : dbValue (-20) (-120) 0 = -20 := by
    simp only [dbValue, abs_zero, Real.logb_zero]
    rw [if_neg (by norm_num)]
    norm_num
  have hc1 : ¬((1000 : ℝ) < dbValue (-20) (-120) 1000) := by
    rw [hv1]
    intro hcon
    linarith
  have hc2 : ¬((1000 : ℝ) < dbValue (-20) (-120) 2000) := by
    rw [hv2]
    intro hcon
    linarith
  have hc0 : ¬((1000 : ℝ) < dbValue (-20) (-120) 0) := by
    rw [hv0]
    norm_num
  have hconv : (dbPass (-20) (-120) [1000, 2000, 0, 0, 0, 0, 0, 0, 0]).1
      = ([1000, 2000, 0, 0, 0, 0, 0, 0, 0] : List ℝ).map (dbValue (-20) (-120)) :=
    dbPass_fst _ _ _
  have hpos : (dbPass (-20) (-120) [1000, 2000, 0, 0, 0, 0, 0, 0, 0]).2.2.1 = 0 := by
    simp only [dbPass, List.headD_cons, List.foldl_cons, List.foldl_nil, dbStep]
    simp [hc1, hc2, hc0]
  have hmax : IsMaxIdx (dbPass (-20) (-120) [1000, 2000, 0, 0, 0, 0, 0, 0, 0]).1 1 := by
    constructor
    · rw [hconv]
      norm_num
    · intro j hj
      rw [hconv] at hj ⊢
      simp only [List.length_map, List.length_cons, List.length_nil] at hj
      interval_cases j <;> simp [hv1, hv2, hv0] <;> linarith
  have hnmax : ¬IsMaxIdx (dbPass (-20) (-120) [1000, 2000, 0, 0, 0, 0, 0, 0, 0]).1 0 := by
    rintro ⟨-, hall⟩
    have h1 := hall 1 (by rw [hconv]; norm_num)
    rw [hconv] at h1
    simp only [List.map_cons, List.getD_cons_succ, List.getD_cons_zero] at h1
    rw [hv1, hv2] at h1
    linarith
  have hne : (List.replicate 20 (1 : ℝ)) ≠ [] := by simp
  have hs1 : Real.sqrt 4000000 = 2000 := by
    rw [show (4000000 : ℝ) = 2000 ^ 2 by norm_num, Real.sqrt_sq (by norm_num)]
  have hlogb10 : Real.logb 10 10 = 1 := Real.logb_self_eq_one (by norm_num)
  refine ⟨?_, hpos, hmax, hnmax, ?_⟩
  · simp only [out, SpectrumGenerator.processChannel, if_neg hne]
    norm_num [resizeList, magnitudeSpectrum, dftLengthOf, autocorrFrequency,
      peakPositionOf, corrScan, corrScanStep, List.range', List.range_succ, hs1,
      hlogb10, dbPass, dbStep, List.headD_cons, hc1, hc2, hc0]
  · simp only [out, SpectrumGenerator.processChannel, if_neg hne]
    norm_num [resizeList, magnitudeSpectrum, dftLengthOf, autocorrFrequency,
      peakPositionOf, corrScan, corrScanStep, List.range', List.range_succ, hs1,
      hlogb10, dbPass, dbStep, List.headD_cons, hc1, hc2, hc0]
